import Mathlib

/-!
Verification of the growth-chart data pipeline.

The development shallowly embeds the two processing scripts of the
repository (`process_data.py` and `02_standardize_data.py`): strings are
lists of characters, table cells are a three-valued type (number, string,
missing), and each Python function becomes a Lean function over these
types.  Theorems at the end settle the behavioural claims about the
pipeline.
-/

namespace GrowthPipeline

/-- Strings of the pipeline are modelled as lists of characters. -/
abbrev Str := List Char

/-- Convert a Lean string literal to the model representation. -/
def cs (s : String) : Str := s.toList

/-- Python `str.lower()` restricted to basic latin, as in the source data. -/
def lowerL (s : Str) : Str := s.map Char.toLower

/-- Python substring test `pat in text`. -/
def containsB (pat : Str) : Str → Bool
  | [] => pat.isPrefixOf []
  | c :: rest => pat.isPrefixOf (c :: rest) || containsB pat rest

/-- Python `text.endswith(pat)`. -/
def endsB (pat text : Str) : Bool := pat.isSuffixOf text

/-- The ASCII whitespace characters stripped by Python `str.strip()`. -/
def isSpaceChar (c : Char) : Bool :=
  c.toNat = 32 || c.toNat = 9 || c.toNat = 10 || c.toNat = 13 ||
  c.toNat = 11 || c.toNat = 12

/-- Python `str.strip()` (whitespace at both ends). -/
def trimWS (s : Str) : Str :=
  ((s.dropWhile isSpaceChar).reverse.dropWhile isSpaceChar).reverse

/-- A raw table cell: a number, a string, or a missing value (`NaN`). -/
inductive Val where
  | num (q : ℚ)
  | str (s : Str)
  | na
deriving DecidableEq

/-- Python `pd.isna` on a cell. -/
def isna : Val → Bool
  | .na => true
  | _ => false

/-- A dataframe: ordered column names plus rows of cells (positional). -/
structure DF where
  headers : List Str
  rows : List (List Val)
deriving DecidableEq

/-- Cell access `row[col]` via the positional index of `col` in the header. -/
def getCell (hs : List Str) (r : List Val) (c : Str) : Val :=
  match hs.findIdx? (· = c) with
  | some i => r.getD i .na
  | none => .na

/-! ### Distribution extraction (`process_data.py`, `process_lms_data`) -/

/-- One extracted LMS record, mirroring the `result_row` dictionary. -/
structure LMSRow where
  source : Str
  measurement : Str
  age_years : Option ℚ
  age_weeks : Option ℚ
  age_months : Option ℚ
  gender : Option Str
  age_range : Option Str
  L : Option Val
  M : Option Val
  S : Option Val
deriving DecidableEq

/-- The magnitude heuristic of `process_lms_data` (lines 84-96): a numeric
age below 2 is years, below 52 is weeks, otherwise months; the other two
units are back-filled with the constants 52.1775, 12 and 4.348.
Returns `(age_years, age_weeks, age_months)`. -/
def resolveAgeUnits (q : ℚ) : Option ℚ × Option ℚ × Option ℚ :=
  if q < 2 then
    (some q, some (q * 52.1775), some (q * 12))
  else if q < 52 then
    (some (q / 52.1775), some q, some (q / 4.348))
  else
    (some (q / 12), some (q * 4.348), some q)

/-- State of the L/M/S scan: the `(L, M, S)` entries of `result_row`. -/
abbrev LMSState := Option Val × Option Val × Option Val

/-- Generic column scan (lines 99-107): a column whose lower-cased name
contains the measurement name or `lms` assigns into L, M or S according
to its suffix; the assignment is unconditional (it can also reset a field
to `none` when the cell is missing). -/
def scanGeneric (hs : List Str) (r : List Val) (meas : Str) (st : LMSState) :
    LMSState :=
  hs.foldl (fun acc c =>
    let low := lowerL c
    if containsB (lowerL meas) low || containsB (cs "lms") low then
      let v := getCell hs r c
      let v' : Option Val := if isna v then none else some v
      if endsB (cs "l") low || containsB (cs "_l") low then
        (v', acc.2.1, acc.2.2)
      else if endsB (cs "m") low || containsB (cs "_m") low then
        (acc.1, v', acc.2.2)
      else if endsB (cs "s") low || containsB (cs "_s") low then
        (acc.1, acc.2.1, v')
      else acc
    else acc) st

/-- Python `col_lower.split('_')`. -/
def splitU : Str → List Str
  | [] => [[]]
  | c :: rest =>
    if c = '_' then [] :: splitU rest
    else
      match splitU rest with
      | p :: ps => (c :: p) :: ps
      | [] => [[c]]

/-- Gender-qualified column scan (lines 110-122): a column containing the
gender token together with a letter `l` and one of height/weight/bmi/hc is
inspected; a non-missing cell is assigned into the field selected by the
last underscore-separated part, while a missing cell keeps the previous
value of the field. -/
def scanGenderStep (hs : List Str) (r : List Val) (genderTok : Str)
    (acc : LMSState) (c : Str) : LMSState :=
  let low := lowerL c
  if containsB genderTok low then
    if containsB (cs "l") low &&
        (containsB (cs "height") low || containsB (cs "weight") low ||
         containsB (cs "bmi") low || containsB (cs "hc") low) then
      let last := (splitU low).getLastD []
      let v := getCell hs r c
      if containsB (cs "l") last || endsB (cs "l") low then
        ((if isna v then acc.1 else some v), acc.2.1, acc.2.2)
      else if containsB (cs "m") last || endsB (cs "m") low then
        (acc.1, (if isna v then acc.2.1 else some v), acc.2.2)
      else if containsB (cs "s") last || endsB (cs "s") low then
        (acc.1, acc.2.1, (if isna v then acc.2.2 else some v))
      else acc
    else acc
  else acc

/-- Full gender-qualified scan: fold the step over all columns in order. -/
def scanGender (hs : List Str) (r : List Val) (genderTok : Str)
    (st : LMSState) : LMSState :=
  hs.foldl (scanGenderStep hs r genderTok) st

/-- The gender token of the second scan (`'male' if gender == 'male' else
'female'`). -/
def genderToken (g : Str) : Str := if g = cs "male" then cs "male" else cs "female"

/-- The combined column scan of one row: the generic strategy first, then,
when a gender context exists, the gender-qualified strategy on its result. -/
def scanLMS (hs : List Str) (r : List Val) (meas : Str)
    (gender : Option Str) : LMSState :=
  let st1 := scanGeneric hs r meas (none, none, none)
  match gender with
  | some g => scanGender hs r (genderToken g) st1
  | none => st1

/-- Processing of one row of `process_lms_data`: skip the row when the age
cell is missing, resolve the age units when the cell is numeric, run both
column scans, and emit the record only when M ended up set. -/
def processRow (hs : List Str) (ageCol : Str) (r : List Val)
    (source meas : Str) (gender ageRange : Option Str) : Option LMSRow :=
  let ageV := getCell hs r ageCol
  if isna ageV then none
  else
    let ages : Option ℚ × Option ℚ × Option ℚ :=
      match ageV with
      | .num q => resolveAgeUnits q
      | _ => (none, none, none)
    let st2 := scanLMS hs r meas gender
    if st2.2.1.isSome then
      some { source := source, measurement := meas,
             age_years := ages.1, age_weeks := ages.2.1,
             age_months := ages.2.2, gender := gender,
             age_range := ageRange, L := st2.1, M := st2.2.1, S := st2.2.2 }
    else none

/-- A header counting as an age column (line 56): its lower-cased name
contains `age`, `week` or `month`. -/
def isAgeHeader (c : Str) : Bool :=
  containsB (cs "age") (lowerL c) || containsB (cs "week") (lowerL c) ||
  containsB (cs "month") (lowerL c)

/-- The Distribution Extractor `process_lms_data` (lines 53-127): pick the
first column whose name contains age/week/month, process every row, and
return the collected records (`None` when no age column or no record). -/
def process_lms_data (df : DF) (source meas : Str)
    (gender ageRange : Option Str) : Option (List LMSRow) :=
  let ageCols := df.headers.filter isAgeHeader
  match ageCols with
  | [] => none
  | ageCol :: _ =>
    let out := df.rows.filterMap
      (fun r => processRow df.headers ageCol r source meas gender ageRange)
    if out = [] then none else some out

/-! ### Standardization (`02_standardize_data.py`) -/

/-- The WHO measurement vocabulary, in source order. -/
def WHO_MEASUREMENT_MAP : List (Str × Str) :=
  [(cs "bmi", cs "bmifa"), (cs "lhfa", cs "lhfa"), (cs "wfa", cs "wfa"),
   (cs "hcfa", cs "hcfa"), (cs "acfa", cs "acfa"), (cs "ssfa", cs "ssfa"),
   (cs "tsfa", cs "tsfa"), (cs "wfl", cs "wfl"), (cs "wfh", cs "wfh")]

/-- The CDC measurement vocabulary, in source order. -/
def CDC_MEASUREMENT_MAP : List (Str × Str) :=
  [(cs "wtageinf", cs "wfa"), (cs "wtage", cs "wfa"), (cs "lenageinf", cs "lhfa"),
   (cs "statage", cs "hfa"), (cs "hcageinf", cs "hcfa"), (cs "wtleninf", cs "wfl"),
   (cs "wtstat", cs "wfh"), (cs "bmiage", cs "bmifa")]

/-- First-match-wins lookup of a pattern vocabulary in a lower-cased stem. -/
def findPattern (m : List (Str × Str)) (filename : Str) : Option Str :=
  m.findSome? (fun p => if containsB p.1 filename then some p.2 else none)

/-- Conversion constant of `weeks_to_months` (4.33 weeks per month). -/
def weeks_to_months (w : ℚ) : ℚ := w / 4.33

/-- Cellwise form of `weeks_to_months` (a non-numeric cell yields missing). -/
def weeksToMonthsV : Val → Val
  | .num w => .num (weeks_to_months w)
  | _ => .na

/-- Column selection `df[cols]`. -/
def selectCols (df : DF) (cols : List Str) : DF :=
  ⟨cols, df.rows.map (fun r => cols.map (getCell df.headers r))⟩

/-- Pandas `df.drop(c, axis=1)` for a column occurring once. -/
def dropCol (df : DF) (c : Str) : DF :=
  match df.headers.findIdx? (· = c) with
  | some i => ⟨df.headers.eraseIdx i, df.rows.map (·.eraseIdx i)⟩
  | none => df

/-- Pandas `df.rename(columns={old: new})`. -/
def renameCol (df : DF) (old new : Str) : DF :=
  ⟨df.headers.map (fun h => if h = old then new else h), df.rows⟩

/-- Column assignment `df[c] = g(row)`: overwrite the column when present,
append it at the end otherwise. -/
def setColBy (df : DF) (c : Str) (g : List Val → Val) : DF :=
  match df.headers.findIdx? (· = c) with
  | some i => ⟨df.headers, df.rows.map (fun r => r.set i (g r))⟩
  | none => ⟨df.headers ++ [c], df.rows.map (fun r => r ++ [g r])⟩

/-- Reorder so that `x` is the first column
(`cols = [x_col] + [c for c in df.columns if c != x_col]`). -/
def frontCol (df : DF) (x : Str) : DF :=
  selectCols df ([x] ++ df.headers.filter (fun c => ¬ (c = x)))

/-- Rows whose `Sex` cell equals the given code. -/
def sexFilter (df : DF) (code : ℚ) : DF :=
  ⟨df.headers, df.rows.filter (fun r => getCell df.headers r (cs "Sex") = .num code)⟩

/-- The gender split of `process_cdc_file` (lines 156-167 and 179-188):
for codes 1 (boys) and 2 (girls), keep the matching rows, drop the `Sex`
column, move the x-axis column to the front, and emit the table only when
it is non-empty. -/
def splitBySex (df : DF) (x : Str) : List (Str × DF) :=
  [(cs "boys", (1 : ℚ)), (cs "girls", (2 : ℚ))].filterMap (fun gc =>
    let gdf := sexFilter df gc.2
    if gdf.rows.length > 0 then
      some (gc.1, frontCol (dropCol gdf (cs "Sex")) x)
    else none)

/-- The WHO processing function `process_who_file` (lines 46-111), taking
the file stem and the parsed table. -/
def process_who_file (stem : Str) (df : DF) : Option (Str × Str × DF) :=
  let filename := lowerL stem
  match findPattern WHO_MEASUREMENT_MAP filename with
  | none => none
  | some meas =>
    let gender? : Option Str :=
      if containsB (cs "boys") filename || containsB (cs "male") filename then
        some (cs "boys")
      else if containsB (cs "girls") filename || containsB (cs "female") filename then
        some (cs "girls")
      else none
    match gender? with
    | none => none
    | some gender =>
      if meas = cs "wfl" ∨ meas = cs "wfh" then
        if (cs "Length") ∈ df.headers then
          some (meas, gender, frontCol df (cs "Length"))
        else if (cs "Height") ∈ df.headers then
          some (meas, gender, frontCol df (cs "Height"))
        else none
      else
        if (cs "Week") ∈ df.headers then
          let df1 := setColBy df (cs "Month")
            (fun r => weeksToMonthsV (getCell df.headers r (cs "Week")))
          let df2 := dropCol df1 (cs "Week")
          some (meas, gender, frontCol df2 (cs "Month"))
        else if (cs "Month") ∈ df.headers then
          some (meas, gender, frontCol df (cs "Month"))
        else none

/-- The CDC processing function `process_cdc_file` (lines 113-190), taking
the file stem and the parsed table. -/
def process_cdc_file (stem : Str) (df : DF) : List (Str × Str × DF) :=
  let filename := lowerL stem
  match findPattern CDC_MEASUREMENT_MAP filename with
  | none => []
  | some meas =>
    if meas = cs "wfl" ∨ meas = cs "wfh" then
      if (cs "Sex") ∈ df.headers then
        let xCol? : Option Str :=
          if (cs "Length") ∈ df.headers then some (cs "Length")
          else if (cs "Height") ∈ df.headers then some (cs "Height")
          else if (cs "Stature") ∈ df.headers then some (cs "Stature")
          else none
        match xCol? with
        | some x => (splitBySex df x).map (fun gd => (meas, gd.1, gd.2))
        | none => []
      else []
    else
      if (cs "Sex") ∈ df.headers ∧ (cs "Agemos") ∈ df.headers then
        let df1 := renameCol df (cs "Agemos") (cs "Month")
        (splitBySex df1 (cs "Month")).map (fun gd => (meas, gd.1, gd.2))
      else []

/-! ### Series combination (`combine_dataframes`) -/

/-- Total comparison on cells used to model `sort_values`: numbers in their
rational order, then strings, then missing values (pandas puts `NaN` last). -/
def vle : Val → Val → Bool
  | .num a, .num b => decide (a ≤ b)
  | .num _, .str _ => true
  | .num _, .na => true
  | .str _, .num _ => false
  | .str _, .str _ => true
  | .str _, .na => true
  | .na, .na => true
  | .na, _ => false

/-- Strict counterpart of `vle` on numeric cells. -/
def vlt : Val → Val → Bool
  | .num a, .num b => decide (a < b)
  | _, _ => false

/-- A cell holding a number. -/
def isNum : Val → Bool
  | .num _ => true
  | _ => false

/-- Row comparison by the x column, as used by `sort_values`. -/
def rowLe (hs : List Str) (x : Str) (r s : List Val) : Bool :=
  vle (getCell hs r x) (getCell hs s x)

/-- Pandas `drop_duplicates(subset=[x], keep='last')`: keep a row exactly
when no later row carries the same x value. -/
def dedupLast (hs : List Str) (x : Str) : List (List Val) → List (List Val)
  | [] => []
  | r :: rest =>
    if rest.any (fun s => getCell hs s x = getCell hs r x) then
      dedupLast hs x rest
    else r :: dedupLast hs x rest

/-- The contract of `combined.sort_values(x_col)` (line 199): the result is
a permutation of the input rows that is sorted by the x cell.  The call
uses the pandas default sort kind (quicksort), which is NOT stable, so the
relative order of rows with equal x values is unspecified — any sorted
permutation is an allowed outcome. -/
def sortValuesSpec (hs : List Str) (x : Str) (l out : List (List Val)) : Prop :=
  out.Perm l ∧ out.Pairwise (fun r s => rowLe hs x r s = true)

/-- Relational model of the Series Combiner `combine_dataframes`
(lines 192-204): `None` on an empty input; otherwise the result arises from
concatenating the tables' rows in input order, sorting them by the x column
under the `sortValuesSpec` contract (tie order unspecified), and dropping
duplicate x values keeping the last occurrence of the chosen order. -/
def combine_dataframes_rel (dfs : List DF) (x : Str) (res : Option DF) : Prop :=
  match dfs with
  | [] => res = none
  | d :: _ =>
    ∃ sorted, sortValuesSpec d.headers x ((dfs.map DF.rows).flatten) sorted ∧
      res = some ⟨d.headers, dedupLast d.headers x sorted⟩

/-- Executable refinement of `combine_dataframes_rel`: the same combiner
computed with a stable sort (`mergeSort`), i.e. the single execution that
`sort_values(..., kind='mergesort')` would produce.  It is one of the
outcomes allowed by the relational model and is used to evaluate concrete
inputs. -/
def combine_dataframes (dfs : List DF) (x : Str) : Option DF :=
  match dfs with
  | [] => none
  | d :: _ =>
    let allRows := (dfs.map DF.rows).flatten
    let sorted := allRows.mergeSort (rowLe d.headers x)
    some ⟨d.headers, dedupLast d.headers x sorted⟩

/-! ### Header normalization (`process_data.py`, `standardize_column_name`) -/

/-- The ordered substring-to-token mappings of `standardize_column_name`
(lines 28-39), in source order. -/
def mappings : List (Str × Str) :=
  [(cs "week/month", cs "age_weeks"), (cs "years", cs "age_years"),
   (cs "age", cs "age_years"), (cs "(years)", cs "age_years"),
   (cs "week", cs "age_weeks"), (cs "month", cs "age_months"),
   (cs "skeletal age", cs "skeletal_age"), (cs "ht. (inches)", cs "height_inches"),
   (cs "mature height", cs "mature_height_pct"), (cs "chart", cs "reference")]

/-- A character kept by the sanitization regex class `[a-zA-Z0-9_]`. -/
def isWordChar (c : Char) : Bool :=
  (65 ≤ c.toNat && c.toNat ≤ 90) || (97 ≤ c.toNat && c.toNat ≤ 122) ||
  (48 ≤ c.toNat && c.toNat ≤ 57) || c.toNat = 95

/-- One character of `re.sub(r'[^a-zA-Z0-9_]', '_', col)`. -/
def replU (c : Char) : Char := if isWordChar c then c else '_'

/-- Collapse runs of underscores, modelling `re.sub(r'_+', '_', col)`. -/
def collapseU : Str → Str
  | [] => []
  | [c] => [c]
  | c :: d :: rest =>
    if c = '_' ∧ d = '_' then collapseU (d :: rest)
    else c :: collapseU (d :: rest)

/-- Python `col.strip('_')`. -/
def trimU (s : Str) : Str :=
  ((s.dropWhile (· = '_')).reverse.dropWhile (· = '_')).reverse

/-- The sanitization fallback of `standardize_column_name` (lines 47-51):
replace characters outside the word class by underscores, collapse
underscore runs, strip edge underscores, lower-case. -/
def sanitizeCol (s : Str) : Str := lowerL (trimU (collapseU (s.map replU)))

/-- The Header Normalizer `standardize_column_name` (lines 23-51): strip
the label, return the first mapped token whose key occurs in the
lower-cased label, and fall back to sanitization when no key matches. -/
def standardize_column_name (col : Str) : Str :=
  let c := trimWS col
  match findPattern mappings (lowerL c) with
  | some v => v
  | none => sanitizeCol c

end GrowthPipeline

section Examples
open GrowthPipeline

example : containsB (cs "male") (cs "female_height_m") = true := by decide

example :
    process_lms_data ⟨[cs "age", cs "lms_m"], [[.num 3, .num 5]]⟩
      (cs "src") (cs "weight") none none =
    some [{ source := cs "src", measurement := cs "weight",
            age_years := some (3 / 52.1775), age_weeks := some 3,
            age_months := some (3 / 4.348), gender := none,
            age_range := none, L := none, M := some (.num 5), S := none }] := rfl

example :
    splitBySex ⟨[cs "Sex", cs "Month", cs "W"],
      [[.num 1, .num 0, .num 10], [.num 2, .num 0, .num 11],
       [.num 1, .num 1, .num 12]]⟩ (cs "Month") =
    [(cs "boys", ⟨[cs "Month", cs "W"], [[.num 0, .num 10], [.num 1, .num 12]]⟩),
     (cs "girls", ⟨[cs "Month", cs "W"], [[.num 0, .num 11]]⟩)] := by decide

example :
    combine_dataframes
      [⟨[cs "x", cs "v"], [[.num 1, .str (cs "A")], [.num 2, .str (cs "B")]]⟩,
       ⟨[cs "x", cs "v"], [[.num 2, .str (cs "C")], [.num 3, .str (cs "D")]]⟩]
      (cs "x") =
    some ⟨[cs "x", cs "v"],
      [[.num 1, .str (cs "A")], [.num 2, .str (cs "C")], [.num 3, .str (cs "D")]]⟩ := by
  simp only [combine_dataframes]
  rw [List.mergeSort_of_sorted (by decide)]
  decide

end Examples

namespace GrowthPipeline

/-! ### Helper lemmas -/

theorem containsB_iff {pat l : Str} : containsB pat l = true ↔ pat <:+: l := by
  induction l with
  | nil =>
    simp [containsB, List.isPrefixOf_iff_prefix]
  | cons c rest ih =>
    simp only [containsB, Bool.or_eq_true, List.isPrefixOf_iff_prefix, ih,
      List.infix_cons_iff]

/-! ### Claim C2: the magnitude heuristic for raw age values -/

/-- C2: a raw numeric age is classified as years when it is below 2, as
weeks when it is at least 2 and below 52, and as months otherwise, with the
other two units back-filled from the chosen one; the boundary inputs 1.999,
2, 51.999 and 52 land in years, weeks, weeks and months respectively. -/
theorem claim2_magnitude_heuristic :
    (∀ q : ℚ, q < 2 →
      resolveAgeUnits q = (some q, some (q * 52.1775), some (q * 12))) ∧
    (∀ q : ℚ, 2 ≤ q → q < 52 →
      resolveAgeUnits q = (some (q / 52.1775), some q, some (q / 4.348))) ∧
    (∀ q : ℚ, 52 ≤ q →
      resolveAgeUnits q = (some (q / 12), some (q * 4.348), some q)) ∧
    resolveAgeUnits 1.999 = (some 1.999, some (1.999 * 52.1775), some (1.999 * 12)) ∧
    resolveAgeUnits 2 = (some (2 / 52.1775), some 2, some (2 / 4.348)) ∧
    resolveAgeUnits 51.999 = (some (51.999 / 52.1775), some 51.999, some (51.999 / 4.348)) ∧
    resolveAgeUnits 52 = (some (52 / 12), some (52 * 4.348), some 52) := by
  refine ⟨fun q h => ?_, fun q h1 h2 => ?_, fun q h => ?_, ?_, ?_, ?_, ?_⟩
  · simp [resolveAgeUnits, h]
  · simp [resolveAgeUnits, h2, not_lt.mpr h1]
  · have h1 : ¬ q < 2 := by linarith
    have h2 : ¬ q < 52 := by linarith
    simp [resolveAgeUnits, h1, h2]
  · norm_num [resolveAgeUnits]
  · norm_num [resolveAgeUnits]
  · norm_num [resolveAgeUnits]
  · norm_num [resolveAgeUnits]

/-- Witness for C2 at the concrete input 3 (a weeks-classified value). -/
theorem claim2_witness :
    resolveAgeUnits 3 = (some (3 / 52.1775), some 3, some (3 / 4.348)) :=
  claim2_magnitude_heuristic.2.1 3 (by norm_num) (by norm_num)

end GrowthPipeline

namespace GrowthPipeline

/-! ### Claim C3: a row is emitted exactly when M ends up set -/

/-- C3: a processed row yields a record exactly when the M field is set
after both scanning strategies; the emitted record carries exactly the
scanned L/M/S fields (L and S may be absent); and a row whose processing
yields nothing is dropped while the rest of the table is still processed. -/
theorem claim3_emit_iff_M :
    (∀ hs ageCol r source meas gender ageRange,
      isna (getCell hs r ageCol) = false →
      ((processRow hs ageCol r source meas gender ageRange).isSome ↔
        (scanLMS hs r meas gender).2.1.isSome)) ∧
    (∀ hs ageCol r source meas gender ageRange row,
      processRow hs ageCol r source meas gender ageRange = some row →
      row.L = (scanLMS hs r meas gender).1 ∧
      row.M = (scanLMS hs r meas gender).2.1 ∧
      row.S = (scanLMS hs r meas gender).2.2) ∧
    (∀ df source meas gender ageRange ageCol restCols pre r0 post,
      df.headers.filter isAgeHeader = ageCol :: restCols →
      df.rows = pre ++ r0 :: post →
      processRow df.headers ageCol r0 source meas gender ageRange = none →
      process_lms_data df source meas gender ageRange =
        process_lms_data ⟨df.headers, pre ++ post⟩ source meas gender ageRange) := by
  refine ⟨?_, ?_, ?_⟩
  · intro hs ageCol r source meas gender ageRange hage
    simp only [processRow, hage, Bool.false_eq_true, if_false]
    split
    · simp_all
    · simp_all
  · intro hs ageCol r source meas gender ageRange row hrow
    simp only [processRow] at hrow
    split at hrow
    · exact absurd hrow (by simp)
    · split at hrow
      · cases hrow
        exact ⟨rfl, rfl, rfl⟩
      · exact absurd hrow (by simp)
  · intro df source meas gender ageRange ageCol restCols pre r0 post hfilter hrows hnone
    simp only [process_lms_data, hfilter, hrows, List.filterMap_append,
      List.filterMap_cons, hnone]

/-- Witness for C3 at a concrete two-column table. -/
theorem claim3_witness :
    (processRow [cs "age", cs "lms_m"] (cs "age") [.num 3, .num 5]
        (cs "src") (cs "weight") none none).isSome ↔
      (scanLMS [cs "age", cs "lms_m"] [.num 3, .num 5]
        (cs "weight") none).2.1.isSome :=
  claim3_emit_iff_M.1 [cs "age", cs "lms_m"] (cs "age") [.num 3, .num 5]
    (cs "src") (cs "weight") none none (by decide)

/-! ### Claim C4: handling of missing and non-numeric age cells -/

/-- C4 counterexample: a row whose age cell holds the non-numeric string
`abc` is NOT dropped — it is emitted as a record (with all age fields
unset) because its M field resolves, contradicting the claim that any
non-numeric age value causes the row to be dropped. -/
theorem claim4_counterexample :
    process_lms_data ⟨[cs "age", cs "lms_m"], [[.str (cs "abc"), .num 5]]⟩
      (cs "src") (cs "weight") none none =
    some [{ source := cs "src", measurement := cs "weight",
            age_years := none, age_weeks := none, age_months := none,
            gender := none, age_range := none,
            L := none, M := some (.num 5), S := none }] := by decide

/-- C4 amended: only a missing (`NaN`) age cell drops the row; a present
but non-numeric age cell leaves the row in processing with all three age
fields unset, and the row is still emitted when M resolves. -/
theorem claim4_amended :
    (∀ hs ageCol r source meas gender ageRange,
      getCell hs r ageCol = .na →
      processRow hs ageCol r source meas gender ageRange = none) ∧
    (∀ hs ageCol r source meas gender ageRange s row,
      getCell hs r ageCol = .str s →
      processRow hs ageCol r source meas gender ageRange = some row →
      row.age_years = none ∧ row.age_weeks = none ∧ row.age_months = none) := by
  constructor
  · intro hs ageCol r source meas gender ageRange hna
    simp [processRow, hna, isna]
  · intro hs ageCol r source meas gender ageRange s row hstr hrow
    simp only [processRow, hstr, isna] at hrow
    split at hrow
    · exact absurd hrow (by simp)
    · split at hrow
      · cases hrow
        exact ⟨rfl, rfl, rfl⟩
      · exact absurd hrow (by simp)

/-- Witness for C4 amended: a concrete row with a missing age cell is
dropped. -/
theorem claim4_witness :
    processRow [cs "age", cs "lms_m"] (cs "age") [.na, .num 5]
      (cs "src") (cs "weight") none none = none :=
  claim4_amended.1 [cs "age", cs "lms_m"] (cs "age") [.na, .num 5]
    (cs "src") (cs "weight") none none (by decide)

end GrowthPipeline

namespace GrowthPipeline

/-! ### Claim C5: interaction of the two scanning strategies -/

/-- C5 counterexample: on the row `[1, 3, 7]` of a table with columns
`age`, `lms_m`, `male_height_m` (measurement `weight`, gender `male`), the
generic strategy sets M to 3, and the gender-qualified strategy then
replaces it with 7 — a value assigned by the first strategy IS replaced by
the second, contradicting the claim. -/
theorem claim5_counterexample :
    scanGeneric [cs "age", cs "lms_m", cs "male_height_m"]
        [.num 1, .num 3, .num 7] (cs "weight") (none, none, none) =
      (none, some (.num 3), none) ∧
    scanGender [cs "age", cs "lms_m", cs "male_height_m"]
        [.num 1, .num 3, .num 7] (genderToken (cs "male"))
        (none, some (.num 3), none) =
      (none, some (.num 7), none) ∧
    scanLMS [cs "age", cs "lms_m", cs "male_height_m"]
        [.num 1, .num 3, .num 7] (cs "weight") (some (cs "male")) =
      (none, some (.num 7), none) := by decide

/-- C5 amended: the gender-qualified strategy is not restricted to unset
fields — each of its steps either leaves the scan state unchanged (in
particular when the matched column's cell is missing) or unconditionally
overwrites exactly one of L, M, S with the column's non-missing cell,
regardless of whether the generic strategy had already set that field. -/
theorem claim5_amended :
    ∀ hs r genderTok acc c,
      scanGenderStep hs r genderTok acc c = acc ∨
      (isna (getCell hs r c) = false ∧
        (scanGenderStep hs r genderTok acc c =
            (some (getCell hs r c), acc.2.1, acc.2.2) ∨
         scanGenderStep hs r genderTok acc c =
            (acc.1, some (getCell hs r c), acc.2.2) ∨
         scanGenderStep hs r genderTok acc c =
            (acc.1, acc.2.1, some (getCell hs r c)))) := by
  intro hs r genderTok acc c
  simp only [scanGenderStep]
  split
  · split
    · split
      · rename_i hna
        cases hv : isna (getCell hs r c)
        · exact Or.inr ⟨rfl, Or.inl (by simp [hv])⟩
        · exact Or.inl (by simp [hv])
      · split
        · cases hv : isna (getCell hs r c)
          · exact Or.inr ⟨rfl, Or.inr (Or.inl (by simp [hv]))⟩
          · exact Or.inl (by simp [hv])
        · split
          · cases hv : isna (getCell hs r c)
            · exact Or.inr ⟨rfl, Or.inr (Or.inr (by simp [hv]))⟩
            · exact Or.inl (by simp [hv])
          · exact Or.inl rfl
    · exact Or.inl rfl
  · exact Or.inl rfl

/-! ### Claim C10: the male token also matches female-labelled columns -/

/-- C10: the token `male` is a substring of `female`, so every column name
containing `female` also passes the male-context matcher; concretely, a
male-context row of a table with a `female_height_m` column takes its M
value from that female-labelled column. -/
theorem claim10_male_matches_female :
    (∀ s : Str, containsB (cs "female") s = true → containsB (cs "male") s = true) ∧
    process_lms_data ⟨[cs "age", cs "female_height_m"], [[.num 1, .num 9]]⟩
        (cs "src") (cs "weight") (some (cs "male")) none =
      some [{ source := cs "src", measurement := cs "weight",
              age_years := some 1, age_weeks := some (1 * 52.1775),
              age_months := some (1 * 12), gender := some (cs "male"),
              age_range := none, L := none, M := some (.num 9), S := none }] := by
  constructor
  · intro s h
    have hmf : cs "male" <:+: cs "female" := by decide
    exact containsB_iff.mpr (hmf.trans (containsB_iff.mp h))
  · rfl

/-- Witness for C10 at the column name `female_height_m`. -/
theorem claim10_witness :
    containsB (cs "male") (cs "female_height_m") = true :=
  claim10_male_matches_female.1 (cs "female_height_m") (by decide)

end GrowthPipeline

namespace GrowthPipeline

/-! ### Claims C8 and C9: unclassifiable files and empty combiner input -/

theorem findPattern_eq_none {m : List (Str × Str)} {s : Str}
    (h : ∀ p ∈ m, containsB p.1 s = false) : findPattern m s = none := by
  induction m with
  | nil => rfl
  | cons p rest ih =>
    have hp := h p (List.mem_cons_self _ _)
    have ih' := ih (fun q hq => h q (List.mem_cons_of_mem _ hq))
    simp only [findPattern, List.findSome?_cons, hp, Bool.false_eq_true,
      if_false] at ih' ⊢
    exact ih'

/-- C8: a file whose lower-cased stem matches no measurement pattern is
skipped entirely — the WHO function returns nothing and the CDC function
returns the empty list — and a WHO file matching no gender pattern is
likewise skipped. -/
theorem claim8_unclassifiable_skipped :
    (∀ stem df, (∀ p ∈ WHO_MEASUREMENT_MAP, containsB p.1 (lowerL stem) = false) →
      process_who_file stem df = none) ∧
    (∀ stem df,
      containsB (cs "boys") (lowerL stem) = false →
      containsB (cs "male") (lowerL stem) = false →
      containsB (cs "girls") (lowerL stem) = false →
      containsB (cs "female") (lowerL stem) = false →
      process_who_file stem df = none) ∧
    (∀ stem df, (∀ p ∈ CDC_MEASUREMENT_MAP, containsB p.1 (lowerL stem) = false) →
      process_cdc_file stem df = []) := by
  refine ⟨?_, ?_, ?_⟩
  · intro stem df h
    simp [process_who_file, findPattern_eq_none h]
  · intro stem df h1 h2 h3 h4
    simp only [process_who_file]
    cases hfp : findPattern WHO_MEASUREMENT_MAP (lowerL stem) with
    | none => rfl
    | some meas => simp [h1, h2, h3, h4]
  · intro stem df h
    simp [process_cdc_file, findPattern_eq_none h]

/-- Witness for C8: the stem `randomfile` matches nothing and both
processing functions skip the file. -/
theorem claim8_witness :
    process_who_file (cs "randomfile") ⟨[], []⟩ = none ∧
    process_cdc_file (cs "randomfile") ⟨[], []⟩ = [] :=
  ⟨claim8_unclassifiable_skipped.1 _ _ (by decide),
   claim8_unclassifiable_skipped.2.2 _ _ (by decide)⟩

/-- C9 counterexample: on an empty input sequence the combiner returns
`none` — no table at all — not an empty table. -/
theorem claim9_counterexample :
    combine_dataframes [] (cs "Month") = none ∧
    combine_dataframes [] (cs "Month") ≠ some ⟨[], []⟩ ∧
    combine_dataframes [] (cs "Month") ≠ some ⟨[cs "Month"], []⟩ := by
  refine ⟨rfl, ?_, ?_⟩ <;> intro h <;> cases h

/-- C9 amended: for every x-axis column, the combiner applied to the empty
sequence of tables returns `None` (the caller then skips the output);
it does not raise an error, and it does not produce an empty table. -/
theorem claim9_amended : ∀ x : Str, combine_dataframes [] x = none :=
  fun _ => rfl

end GrowthPipeline

namespace GrowthPipeline

/-! ### Claim C7: the gender split -/

theorem findIdx_exists_of_mem {c : Str} {hs : List Str} (h : c ∈ hs) :
    ∃ i, hs.findIdx? (· = c) = some i := by
  cases hfi : hs.findIdx? (· = c) with
  | some i => exact ⟨i, rfl⟩
  | none =>
    have := List.findIdx?_eq_none_iff.mp hfi c h
    simp at this

theorem nodup_not_mem_eraseIdx {c : Str} :
    ∀ (l : List Str) (i : Nat), l.Nodup → l[i]? = some c → c ∉ l.eraseIdx i := by
  intro l
  induction l with
  | nil => intro i _ h; simp at h
  | cons a t ih =>
    intro i hnd hget
    cases i with
    | zero =>
      simp only [List.getElem?_cons_zero, Option.some.injEq] at hget
      subst hget
      simpa using (List.nodup_cons.mp hnd).1
    | succ i =>
      simp only [List.getElem?_cons_succ] at hget
      have hmem : c ∈ t := List.getElem?_mem hget
      simp only [List.eraseIdx_cons_succ, List.mem_cons]
      rintro (rfl | h2)
      · exact (List.nodup_cons.mp hnd).1 hmem
      · exact ih i (List.nodup_cons.mp hnd).2 hget h2

theorem not_mem_dropCol_headers (df : DF) {c : Str}
    (hnd : df.headers.Nodup) (hc : c ∈ df.headers) :
    c ∉ (dropCol df c).headers := by
  obtain ⟨i, hi⟩ := findIdx_exists_of_mem hc
  obtain ⟨hlen, hpi, -⟩ := List.findIdx?_eq_some_iff_getElem.mp hi
  have hgi : df.headers[i]? = some c := by
    rw [List.getElem?_eq_getElem hlen]
    simpa using hpi
  simp only [dropCol, hi]
  exact nodup_not_mem_eraseIdx df.headers i hnd hgi

/-- C7: a table with a row-level `Sex` indicator splits into a boys table
(code 1) and a girls table (code 2); each table loses the `Sex` column,
has the x-axis column first, and has exactly as many rows as the rows
carrying its code; on the concrete table with `Sex` values `[1, 2, 1]` and
two further columns this yields a 2-row boys table and a 1-row girls
table. -/
theorem claim7_gender_split :
    (∀ (df : DF) (x : Str),
      df.headers.Nodup →
      cs "Sex" ∈ df.headers →
      x ≠ cs "Sex" →
      (sexFilter df 1).rows ≠ [] →
      (sexFilter df 2).rows ≠ [] →
      ∃ B G, splitBySex df x = [(cs "boys", B), (cs "girls", G)] ∧
        B.headers.head? = some x ∧ G.headers.head? = some x ∧
        cs "Sex" ∉ B.headers ∧ cs "Sex" ∉ G.headers ∧
        B.rows.length =
          df.rows.countP (fun r => decide (getCell df.headers r (cs "Sex") = .num 1)) ∧
        G.rows.length =
          df.rows.countP (fun r => decide (getCell df.headers r (cs "Sex") = .num 2))) ∧
    splitBySex ⟨[cs "Sex", cs "Month", cs "W"],
        [[.num 1, .num 0, .num 10], [.num 2, .num 0, .num 11],
         [.num 1, .num 1, .num 12]]⟩ (cs "Month") =
      [(cs "boys", ⟨[cs "Month", cs "W"], [[.num 0, .num 10], [.num 1, .num 12]]⟩),
       (cs "girls", ⟨[cs "Month", cs "W"], [[.num 0, .num 11]]⟩)] := by
  constructor
  · intro df x hnd hsex hxs hb hg
    refine ⟨frontCol (dropCol (sexFilter df 1) (cs "Sex")) x,
            frontCol (dropCol (sexFilter df 2) (cs "Sex")) x, ?_, ?_, ?_, ?_, ?_, ?_, ?_⟩
    · simp only [splitBySex, List.filterMap_cons, List.filterMap_nil]
      rw [if_pos (by simpa [List.length_pos_iff_ne_nil] using hb),
          if_pos (by simpa [List.length_pos_iff_ne_nil] using hg)]
    · simp [frontCol, selectCols]
    · simp [frontCol, selectCols]
    · have hdrop : cs "Sex" ∉ (dropCol (sexFilter df 1) (cs "Sex")).headers :=
        not_mem_dropCol_headers (sexFilter df 1) hnd hsex
      simp only [frontCol, selectCols, List.cons_append, List.nil_append,
        List.mem_cons, List.mem_filter]
      rintro (h1 | h2)
      · exact hxs h1.symm
      · exact hdrop h2.1
    · have hdrop : cs "Sex" ∉ (dropCol (sexFilter df 2) (cs "Sex")).headers :=
        not_mem_dropCol_headers (sexFilter df 2) hnd hsex
      simp only [frontCol, selectCols, List.cons_append, List.nil_append,
        List.mem_cons, List.mem_filter]
      rintro (h1 | h2)
      · exact hxs h1.symm
      · exact hdrop h2.1
    · simp only [frontCol, selectCols, dropCol, sexFilter]
      split <;> simp [List.countP_eq_length_filter]
    · simp only [frontCol, selectCols, dropCol, sexFilter]
      split <;> simp [List.countP_eq_length_filter]
  · decide

/-- Witness for C7 at the `[1, 2, 1]` table of the claim. -/
theorem claim7_witness :
    ∃ B G, splitBySex ⟨[cs "Sex", cs "Month", cs "W"],
        [[.num 1, .num 0, .num 10], [.num 2, .num 0, .num 11],
         [.num 1, .num 1, .num 12]]⟩ (cs "Month") = [(cs "boys", B), (cs "girls", G)] ∧
      B.headers.head? = some (cs "Month") ∧ G.headers.head? = some (cs "Month") ∧
      cs "Sex" ∉ B.headers ∧ cs "Sex" ∉ G.headers ∧
      B.rows.length = List.countP (fun r =>
        decide (getCell [cs "Sex", cs "Month", cs "W"] r (cs "Sex") = .num 1))
        [[.num 1, .num 0, .num 10], [.num 2, .num 0, .num 11], [.num 1, .num 1, .num 12]] ∧
      G.rows.length = List.countP (fun r =>
        decide (getCell [cs "Sex", cs "Month", cs "W"] r (cs "Sex") = .num 2))
        [[.num 1, .num 0, .num 10], [.num 2, .num 0, .num 11], [.num 1, .num 1, .num 12]] :=
  claim7_gender_split.1
    ⟨[cs "Sex", cs "Month", cs "W"],
      [[.num 1, .num 0, .num 10], [.num 2, .num 0, .num 11], [.num 1, .num 1, .num 12]]⟩
    (cs "Month") (by decide) (by decide) (by decide) (by decide) (by decide)

end GrowthPipeline

namespace GrowthPipeline

/-! ### Claim C1: lemmas about the combiner's ordering and deduplication -/

theorem vle_refl (a : Val) : vle a a = true := by
  cases a <;> simp [vle]

theorem vle_trans : ∀ a b c, vle a b = true → vle b c = true → vle a c = true := by
  intro a b c
  cases a <;> cases b <;> cases c <;> simp [vle] <;>
    exact fun h1 h2 => le_trans h1 h2

theorem vle_total : ∀ a b, vle a b || vle b a := by
  intro a b
  cases a <;> cases b <;> simp [vle] <;> exact le_total _ _

theorem rowLe_trans (hs : List Str) (x : Str) :
    ∀ a b c, rowLe hs x a b = true → rowLe hs x b c = true → rowLe hs x a c = true :=
  fun _ _ _ h1 h2 => vle_trans _ _ _ h1 h2

theorem rowLe_total (hs : List Str) (x : Str) :
    ∀ a b, rowLe hs x a b || rowLe hs x b a :=
  fun _ _ => vle_total _ _

theorem dedupLast_sublist (hs : List Str) (x : Str) :
    ∀ l, List.Sublist (dedupLast hs x l) l := by
  intro l
  induction l with
  | nil => simp [dedupLast]
  | cons r rest ih =>
    simp only [dedupLast]
    split
    · exact ih.cons r
    · exact ih.cons₂ r

theorem dedupLast_pairwise_ne (hs : List Str) (x : Str) :
    ∀ l, (dedupLast hs x l).Pairwise
      (fun r s => getCell hs r x ≠ getCell hs s x) := by
  intro l
  induction l with
  | nil => simp [dedupLast]
  | cons r rest ih =>
    simp only [dedupLast]
    split
    · exact ih
    · rename_i hany
      refine List.Pairwise.cons ?_ ih
      intro s hsmem heq
      have hsrest : s ∈ rest := (dedupLast_sublist hs x rest).subset hsmem
      exact hany (List.any_eq_true.mpr ⟨s, hsrest, by simp [heq]⟩)

theorem dedupLast_filter (hs : List Str) (x : Str) (v : Val) :
    ∀ l, (dedupLast hs x l).filter (fun r => decide (getCell hs r x = v)) =
      ((l.filter (fun r => decide (getCell hs r x = v))).getLast?).toList := by
  intro l
  induction l with
  | nil => rfl
  | cons r rest ih =>
    simp only [dedupLast]
    by_cases hany : rest.any (fun s => decide (getCell hs s x = getCell hs r x)) = true
    · rw [if_pos hany, ih]
      by_cases hrv : getCell hs r x = v
      · obtain ⟨s, hsmem, hsr⟩ := List.any_eq_true.mp hany
        have hsv : decide (getCell hs s x = v) = true := by
          simp only [decide_eq_true_eq] at hsr ⊢
          rw [hsr, hrv]
        have hmem2 : s ∈ rest.filter (fun r => decide (getCell hs r x = v)) :=
          List.mem_filter.mpr ⟨hsmem, hsv⟩
        obtain ⟨b, l', hbl⟩ :=
          List.exists_cons_of_ne_nil (List.ne_nil_of_mem hmem2)
        rw [List.filter_cons_of_pos (by simp [hrv]), hbl,
          List.getLast?_cons_cons]
      · rw [List.filter_cons_of_neg (by simp [hrv])]
    · rw [if_neg hany]
      by_cases hrv : getCell hs r x = v
      · have hnone : rest.filter (fun s => decide (getCell hs s x = v)) = [] := by
          rw [List.filter_eq_nil_iff]
          intro s hsmem
          simp only [decide_eq_true_eq]
          intro heq
          exact hany (List.any_eq_true.mpr
            ⟨s, hsmem, by simp [heq, hrv]⟩)
        have hfl : (dedupLast hs x rest).filter
            (fun r => decide (getCell hs r x = v)) = [] := by
          rw [ih, hnone]
          rfl
        rw [List.filter_cons_of_pos (by simp [hrv]), hfl,
          List.filter_cons_of_pos (by simp [hrv]), hnone]
        rfl
      · rw [List.filter_cons_of_neg (by simp [hrv]),
          List.filter_cons_of_neg (by simp [hrv])]
        exact ih

theorem filter_mergeSort_keyEq (hs : List Str) (x : Str) (v : Val)
    (l : List (List Val)) :
    (l.mergeSort (rowLe hs x)).filter (fun r => decide (getCell hs r x = v)) =
      l.filter (fun r => decide (getCell hs r x = v)) := by
  have hall : ∀ a ∈ l.filter (fun r => decide (getCell hs r x = v)),
      decide (getCell hs a x = v) = true := fun a ha => (List.mem_filter.mp ha).2
  have hpair : (l.filter (fun r => decide (getCell hs r x = v))).Pairwise
      (fun a b => rowLe hs x a b = true) := by
    apply List.pairwise_of_forall_mem_list
    intro a ha b hb
    have ha' := (List.mem_filter.mp ha).2
    have hb' := (List.mem_filter.mp hb).2
    simp only [decide_eq_true_eq] at ha' hb'
    simp only [rowLe, ha', hb']
    exact vle_refl v
  have hsub : List.Sublist (l.filter (fun r => decide (getCell hs r x = v)))
      (l.mergeSort (rowLe hs x)) :=
    List.sublist_mergeSort (rowLe_trans hs x) (rowLe_total hs x) hpair
      (List.filter_sublist l)
  have hsub2 : List.Sublist (l.filter (fun r => decide (getCell hs r x = v)))
      ((l.mergeSort (rowLe hs x)).filter (fun r => decide (getCell hs r x = v))) := by
    have := hsub.filter (fun r => decide (getCell hs r x = v))
    rwa [List.filter_eq_self.mpr hall] at this
  have hlen : ((l.mergeSort (rowLe hs x)).filter
      (fun r => decide (getCell hs r x = v))).length =
      (l.filter (fun r => decide (getCell hs r x = v))).length := by
    rw [← List.countP_eq_length_filter, ← List.countP_eq_length_filter]
    exact (List.mergeSort_perm l (rowLe hs x)).countP_eq _
  exact (hsub2.eq_of_length hlen.symm).symm

end GrowthPipeline

namespace GrowthPipeline

theorem dedupLast_exists_key (hs : List Str) (x : Str) (v : Val) :
    ∀ l : List (List Val), (∃ r ∈ l, getCell hs r x = v) →
      ∃ r ∈ dedupLast hs x l, getCell hs r x = v := by
  intro l
  induction l with
  | nil => rintro ⟨r, hr, _⟩; simp at hr
  | cons r0 rest ih =>
    rintro ⟨r, hr, hkey⟩
    simp only [dedupLast]
    by_cases hany : rest.any (fun s => decide (getCell hs s x = getCell hs r0 x)) = true
    · rw [if_pos hany]
      rcases List.mem_cons.mp hr with rfl | hmem
      · obtain ⟨s, hsmem, hseq⟩ := List.any_eq_true.mp hany
        simp only [decide_eq_true_eq] at hseq
        exact ih ⟨s, hsmem, by rw [hseq, hkey]⟩
      · exact ih ⟨r, hmem, hkey⟩
    · rw [if_neg hany]
      rcases List.mem_cons.mp hr with rfl | hmem
      · exact ⟨r, List.mem_cons_self _ _, hkey⟩
      · obtain ⟨r2, hr2, hk2⟩ := ih ⟨r, hmem, hkey⟩
        exact ⟨r2, List.mem_cons_of_mem _ hr2, hk2⟩

/-- C1 counterexample: the source sorts with the pandas default quicksort,
which does not fix the relative order of rows with equal x, so on the two
tables `[(1,A),(2,B)]` and `[(2,C),(3,D)]` the sort contract also allows
the tie order `(2,C)` before `(2,B)`; keeping the last occurrence then
retains the EARLIER table's row `(2,B)`, producing `[(1,A),(2,B),(3,D)]`
rather than the claimed `[(1,A),(2,C),(3,D)]` — the later-listed table
winning at every colliding x is not guaranteed by the code. -/
theorem claim1_counterexample :
    combine_dataframes_rel
      [⟨[cs "x", cs "v"], [[.num 1, .str (cs "A")], [.num 2, .str (cs "B")]]⟩,
       ⟨[cs "x", cs "v"], [[.num 2, .str (cs "C")], [.num 3, .str (cs "D")]]⟩]
      (cs "x")
      (some ⟨[cs "x", cs "v"],
        [[.num 1, .str (cs "A")], [.num 2, .str (cs "B")], [.num 3, .str (cs "D")]]⟩) ∧
    (⟨[cs "x", cs "v"],
        [[Val.num 1, Val.str (cs "A")], [Val.num 2, Val.str (cs "B")],
         [Val.num 3, Val.str (cs "D")]]⟩ : DF) ≠
      ⟨[cs "x", cs "v"],
        [[Val.num 1, Val.str (cs "A")], [Val.num 2, Val.str (cs "C")],
         [Val.num 3, Val.str (cs "D")]]⟩ := by
  constructor
  · exact ⟨[[.num 1, .str (cs "A")], [.num 2, .str (cs "C")],
      [.num 2, .str (cs "B")], [.num 3, .str (cs "D")]],
      ⟨by decide, by decide⟩, by decide⟩
  · decide

/-- C1 amended: the combiner concatenates the tables (which share the first
table's header schema) in input order, sorts ascending by the x column
under the unstable-sort contract, and drops duplicate x values keeping the
last occurrence of the resulting order.  Consequently (i) every allowed
outcome on numeric x cells is strictly sorted with unique x values, its
rows drawn from the concatenation, with exactly the concatenation's x
values surviving; (ii) the stable-sort refinement `combine_dataframes` is
one allowed outcome; (iii) under that stable refinement the later-listed
table wins at every colliding x — the surviving row at each x value is the
last matching row of the concatenation — and on the claim's two concrete
tables it yields `[(1,A),(2,C),(3,D)]`; but which colliding row survives
under the pandas default sort kind is not determined by the source. -/
theorem claim1_amended :
    (∀ (d : DF) (rest : List DF) (x : Str) (res : Option DF),
      (∀ df ∈ d :: rest, df.headers = d.headers) →
      (∀ r ∈ ((d :: rest).map DF.rows).flatten, isNum (getCell d.headers r x) = true) →
      combine_dataframes_rel (d :: rest) x res →
      ∃ out, res = some out ∧ out.headers = d.headers ∧
        out.rows.Pairwise
          (fun r s => vlt (getCell d.headers r x) (getCell d.headers s x) = true) ∧
        (∀ r ∈ out.rows, r ∈ ((d :: rest).map DF.rows).flatten) ∧
        (∀ v : Val, (∃ r ∈ out.rows, getCell d.headers r x = v) ↔
          (∃ r ∈ ((d :: rest).map DF.rows).flatten, getCell d.headers r x = v))) ∧
    (∀ (dfs : List DF) (x : Str),
      combine_dataframes_rel dfs x (combine_dataframes dfs x)) ∧
    (∀ (d : DF) (rest : List DF) (x : Str),
      (∀ df ∈ d :: rest, df.headers = d.headers) →
      ∃ out, combine_dataframes (d :: rest) x = some out ∧
        ∀ v : Val, out.rows.filter (fun r => decide (getCell d.headers r x = v)) =
          ((((d :: rest).map DF.rows).flatten.filter
            (fun r => decide (getCell d.headers r x = v))).getLast?).toList) ∧
    combine_dataframes
      [⟨[cs "x", cs "v"], [[.num 1, .str (cs "A")], [.num 2, .str (cs "B")]]⟩,
       ⟨[cs "x", cs "v"], [[.num 2, .str (cs "C")], [.num 3, .str (cs "D")]]⟩]
      (cs "x") =
    some ⟨[cs "x", cs "v"],
      [[.num 1, .str (cs "A")], [.num 2, .str (cs "C")], [.num 3, .str (cs "D")]]⟩ := by
  refine ⟨?_, ?_, ?_, ?_⟩
  · intro d rest x res hhead hnum hrel
    obtain ⟨sorted, ⟨hperm, hsorted⟩, rfl⟩ := hrel
    refine ⟨⟨d.headers, dedupLast d.headers x sorted⟩, rfl, rfl, ?_, ?_, ?_⟩
    · have hle : (dedupLast d.headers x sorted).Pairwise
          (fun r s => rowLe d.headers x r s = true) :=
        hsorted.sublist (dedupLast_sublist d.headers x sorted)
      have hne := dedupLast_pairwise_ne d.headers x sorted
      refine (hle.and hne).imp_of_mem ?_
      intro r s hr hs hrs
      have hrmem : r ∈ ((d :: rest).map DF.rows).flatten :=
        hperm.subset ((dedupLast_sublist d.headers x sorted).subset hr)
      have hsmem : s ∈ ((d :: rest).map DF.rows).flatten :=
        hperm.subset ((dedupLast_sublist d.headers x sorted).subset hs)
      have hrn := hnum r hrmem
      have hsn := hnum s hsmem
      obtain ⟨hle2, hne2⟩ := hrs
      cases hvr : getCell d.headers r x with
      | num a =>
        cases hvs : getCell d.headers s x with
        | num b =>
          simp only [rowLe, hvr, hvs, vle, decide_eq_true_eq] at hle2
          rw [hvr, hvs] at hne2
          simp only [vlt, decide_eq_true_eq]
          exact lt_of_le_of_ne hle2 (fun h => hne2 (by rw [h]))
        | str s2 => rw [hvs] at hsn; simp [isNum] at hsn
        | na => rw [hvs] at hsn; simp [isNum] at hsn
      | str s2 => rw [hvr] at hrn; simp [isNum] at hrn
      | na => rw [hvr] at hrn; simp [isNum] at hrn
    · intro r hr
      exact hperm.subset ((dedupLast_sublist d.headers x sorted).subset hr)
    · intro v
      constructor
      · rintro ⟨r, hr, hkey⟩
        exact ⟨r, hperm.subset ((dedupLast_sublist d.headers x sorted).subset hr), hkey⟩
      · rintro ⟨r, hr, hkey⟩
        exact dedupLast_exists_key d.headers x v sorted ⟨r, hperm.mem_iff.mpr hr, hkey⟩
  · intro dfs x
    cases dfs with
    | nil => rfl
    | cons d rest =>
      exact ⟨(((d :: rest).map DF.rows).flatten).mergeSort (rowLe d.headers x),
        ⟨List.mergeSort_perm _ _,
         List.sorted_mergeSort (rowLe_trans d.headers x) (rowLe_total d.headers x) _⟩,
        rfl⟩
  · intro d rest x hhead
    refine ⟨⟨d.headers, dedupLast d.headers x
      ((((d :: rest).map DF.rows).flatten).mergeSort (rowLe d.headers x))⟩, rfl, ?_⟩
    intro v
    rw [dedupLast_filter, filter_mergeSort_keyEq]
  · simp only [combine_dataframes]
    rw [List.mergeSort_of_sorted (by decide)]
    decide

/-- Witness for C1 at the claim's two concrete tables: part (i) applied to
the stable outcome `[(1,A),(2,C),(3,D)]` of the relational model, and part
(iii) applied to the same tables. -/
theorem claim1_witness :
    (∃ out, (some (⟨[cs "x", cs "v"],
        [[Val.num 1, Val.str (cs "A")], [Val.num 2, Val.str (cs "C")],
         [Val.num 3, Val.str (cs "D")]]⟩ : DF) : Option DF) = some out ∧
      out.headers = [cs "x", cs "v"] ∧
      out.rows.Pairwise (fun r s =>
        vlt (getCell [cs "x", cs "v"] r (cs "x"))
          (getCell [cs "x", cs "v"] s (cs "x")) = true) ∧
      (∀ r ∈ out.rows,
        r ∈ [[Val.num 1, Val.str (cs "A")], [Val.num 2, Val.str (cs "B")],
             [Val.num 2, Val.str (cs "C")], [Val.num 3, Val.str (cs "D")]]) ∧
      (∀ v : Val,
        (∃ r ∈ out.rows, getCell [cs "x", cs "v"] r (cs "x") = v) ↔
        (∃ r ∈ [[Val.num 1, Val.str (cs "A")], [Val.num 2, Val.str (cs "B")],
                [Val.num 2, Val.str (cs "C")], [Val.num 3, Val.str (cs "D")]],
          getCell [cs "x", cs "v"] r (cs "x") = v))) ∧
    (∃ out, combine_dataframes
        [⟨[cs "x", cs "v"], [[.num 1, .str (cs "A")], [.num 2, .str (cs "B")]]⟩,
         ⟨[cs "x", cs "v"], [[.num 2, .str (cs "C")], [.num 3, .str (cs "D")]]⟩]
        (cs "x") = some out ∧
      ∀ v : Val, out.rows.filter
          (fun r => decide (getCell [cs "x", cs "v"] r (cs "x") = v)) =
        (([[Val.num 1, Val.str (cs "A")], [Val.num 2, Val.str (cs "B")],
           [Val.num 2, Val.str (cs "C")], [Val.num 3, Val.str (cs "D")]].filter
          (fun r => decide (getCell [cs "x", cs "v"] r (cs "x") = v))).getLast?).toList) := by
  constructor
  · exact claim1_amended.1
      ⟨[cs "x", cs "v"], [[.num 1, .str (cs "A")], [.num 2, .str (cs "B")]]⟩
      [⟨[cs "x", cs "v"], [[.num 2, .str (cs "C")], [.num 3, .str (cs "D")]]⟩]
      (cs "x") _ (by decide) (by decide)
      ⟨[[.num 1, .str (cs "A")], [.num 2, .str (cs "B")],
        [.num 2, .str (cs "C")], [.num 3, .str (cs "D")]],
       ⟨by decide, by decide⟩, by decide⟩
  · exact claim1_amended.2.2.1
      ⟨[cs "x", cs "v"], [[.num 1, .str (cs "A")], [.num 2, .str (cs "B")]]⟩
      [⟨[cs "x", cs "v"], [[.num 2, .str (cs "C")], [.num 3, .str (cs "D")]]⟩]
      (cs "x") (by decide)

end GrowthPipeline

section Examples2
open GrowthPipeline

example : standardize_column_name (cs "Week") = cs "age_weeks" := by decide
example : standardize_column_name (cs "age_weeks") = cs "age_years" := by decide
example : standardize_column_name (cs "age_months") = cs "age_years" := by decide
example : standardize_column_name (cs "skeletal_age") = cs "age_years" := by decide
example : standardize_column_name (cs "age_years") = cs "age_years" := by decide
example : standardize_column_name (cs "height_inches") = cs "height_inches" := by decide
example : standardize_column_name (cs "mature_height_pct") = cs "mature_height_pct" := by decide
example : standardize_column_name (cs "reference") = cs "reference" := by decide
example : standardize_column_name (cs "  Ht. (Inches) ") = cs "height_inches" := by decide
example : standardize_column_name (cs "BMI %%value") = cs "bmi_value" := by decide

end Examples2

namespace GrowthPipeline

/-! ### Claim C6: character-level lemmas for the header normalizer -/

theorem toNat_ofNat_valid {n : Nat} (h : n.isValidChar) :
    (Char.ofNat n).toNat = n := by
  unfold Char.ofNat
  rw [dif_pos h]
  rfl

theorem toNat_toLower (c : Char) :
    (Char.toLower c).toNat =
      if 65 ≤ c.toNat ∧ c.toNat ≤ 90 then c.toNat + 32 else c.toNat := by
  rw [Char.toLower]
  by_cases h : 65 ≤ c.toNat ∧ c.toNat ≤ 90
  · rw [if_pos h, if_pos h]
    exact toNat_ofNat_valid (Or.inl (by omega))
  · rw [if_neg h, if_neg h]

theorem char_eq_iff_toNat {c d : Char} : c = d ↔ c.toNat = d.toNat := by
  constructor
  · intro h; rw [h]
  · intro h
    have h1 := Char.ofNat_toNat c
    have h2 := Char.ofNat_toNat d
    rw [← h1, ← h2, h]

theorem isWordChar_toNat {c : Char} : isWordChar c = true ↔
    (65 ≤ c.toNat ∧ c.toNat ≤ 90) ∨ (97 ≤ c.toNat ∧ c.toNat ≤ 122) ∨
    (48 ≤ c.toNat ∧ c.toNat ≤ 57) ∨ c.toNat = 95 := by
  simp only [isWordChar, Bool.or_eq_true, Bool.and_eq_true, decide_eq_true_eq]
  tauto

theorem toLower_idem (c : Char) :
    Char.toLower (Char.toLower c) = Char.toLower c := by
  rw [char_eq_iff_toNat, toNat_toLower, toNat_toLower]
  split_ifs <;> omega

theorem isWordChar_toLower {c : Char} (h : isWordChar c = true) :
    isWordChar (Char.toLower c) = true := by
  rw [isWordChar_toNat] at h ⊢
  rw [toNat_toLower]
  split_ifs <;> omega

theorem toLower_eq_self_of_not_wordChar {c : Char} (h : isWordChar c = false) :
    Char.toLower c = c := by
  have h' : ¬ (isWordChar c = true) := by simp [h]
  rw [isWordChar_toNat] at h'
  rw [char_eq_iff_toNat, toNat_toLower, if_neg (fun hif => h' (Or.inl hif))]

theorem toLower_eq_underscore_iff {c : Char} :
    (Char.toLower c = '_') ↔ c = '_' := by
  rw [char_eq_iff_toNat, char_eq_iff_toNat (c := c), toNat_toLower]
  have h95 : ('_').toNat = 95 := rfl
  rw [h95]
  split_ifs <;> omega

theorem not_space_of_wordChar {c : Char} (h : isWordChar c = true) :
    isSpaceChar c = false := by
  rw [isWordChar_toNat] at h
  rw [Bool.eq_false_iff]
  intro hs
  simp only [isSpaceChar, Bool.or_eq_true, decide_eq_true_eq] at hs
  omega

theorem isWordChar_replU (c : Char) : isWordChar (replU c) = true := by
  unfold replU
  split
  · assumption
  · decide

theorem replU_cases (c : Char) : replU c = c ∨ replU c = '_' := by
  unfold replU
  split
  · exact Or.inl rfl
  · exact Or.inr rfl

theorem toLower_replU (c : Char) :
    Char.toLower (replU c) = replU (Char.toLower c) := by
  by_cases h : isWordChar c = true
  · rw [replU, if_pos h, replU, if_pos (isWordChar_toLower h)]
  · have h' : isWordChar c = false := by simp at h; exact h
    rw [replU, if_neg (by simp [h']), replU, toLower_eq_self_of_not_wordChar h',
      if_neg (by simp [h'])]
    decide

end GrowthPipeline

namespace GrowthPipeline

/-! ### Claim C6: list-level lemmas about the sanitization pipeline -/

theorem collapseU_sublist : ∀ y : Str, List.Sublist (collapseU y) y := by
  intro y
  induction y with
  | nil => simp [collapseU]
  | cons c rest ih =>
    cases rest with
    | nil => simp [collapseU]
    | cons d rest2 =>
      rw [collapseU]
      split
      · exact ih.cons c
      · exact ih.cons₂ c

theorem trimBy_sublist (p : Char → Bool) (y : Str) :
    List.Sublist (((y.dropWhile p).reverse.dropWhile p).reverse) y := by
  have h1 : List.Sublist (y.dropWhile p) y := List.dropWhile_sublist p
  have h2 : List.Sublist ((y.dropWhile p).reverse.dropWhile p)
      (y.dropWhile p).reverse := List.dropWhile_sublist p
  have h3 := h2.reverse
  rw [List.reverse_reverse] at h3
  exact h3.trans h1

theorem trimU_infix_self (y : Str) : trimU y <:+: y := by
  unfold trimU
  have hsuf : y.dropWhile (· = '_') <:+ y := List.dropWhile_suffix _
  have hpre : ((y.dropWhile (· = '_')).reverse.dropWhile (· = '_')).reverse <+:
      y.dropWhile (· = '_') := by
    rw [← List.reverse_suffix, List.reverse_reverse]
    exact List.dropWhile_suffix _
  exact hpre.isInfix.trans hsuf.isInfix

theorem sanitizeCol_chars {s : Str} : ∀ c ∈ sanitizeCol s, isWordChar c = true := by
  intro c hc
  simp only [sanitizeCol, lowerL, List.mem_map] at hc
  obtain ⟨d, hd, rfl⟩ := hc
  have hd2 : d ∈ collapseU (s.map replU) := (trimBy_sublist _ _).subset hd
  have hd3 : d ∈ s.map replU := (collapseU_sublist _).subset hd2
  obtain ⟨e, _, rfl⟩ := List.mem_map.mp hd3
  exact isWordChar_toLower (isWordChar_replU e)

theorem dropWhile_eq_self_of_forall {p : Char → Bool} {l : Str}
    (h : ∀ c ∈ l, p c = false) : l.dropWhile p = l := by
  cases l with
  | nil => rfl
  | cons a t =>
    rw [List.dropWhile_cons, if_neg]
    simp [h a (List.mem_cons_self a t)]

theorem trimBy_eq_self {p : Char → Bool} {l : Str} (h : ∀ c ∈ l, p c = false) :
    ((l.dropWhile p).reverse.dropWhile p).reverse = l := by
  rw [dropWhile_eq_self_of_forall h,
    dropWhile_eq_self_of_forall (fun c hc => h c (by simpa using hc)),
    List.reverse_reverse]

theorem trimWS_sanitizeCol (s : Str) : trimWS (sanitizeCol s) = sanitizeCol s :=
  trimBy_eq_self (fun c hc => not_space_of_wordChar (sanitizeCol_chars c hc))

theorem lowerL_idem (s : Str) : lowerL (lowerL s) = lowerL s := by
  simp only [lowerL, List.map_map]
  exact List.map_congr_left (fun c _ => toLower_idem c)

theorem lowerL_map_replU (s : Str) :
    lowerL (s.map replU) = (lowerL s).map replU := by
  simp only [lowerL, List.map_map]
  exact List.map_congr_left (fun c _ => toLower_replU c)

theorem collapseU_lowerL (y : Str) : collapseU (lowerL y) = lowerL (collapseU y) := by
  induction y with
  | nil => rfl
  | cons c rest ih =>
    cases rest with
    | nil => rfl
    | cons d rest2 =>
      simp only [lowerL, List.map_cons]
      rw [collapseU, collapseU]
      by_cases h : c = '_' ∧ d = '_'
      · rw [if_pos h, if_pos ⟨toLower_eq_underscore_iff.mpr h.1,
          toLower_eq_underscore_iff.mpr h.2⟩]
        simpa [lowerL] using ih
      · rw [if_neg h, if_neg (fun hlow =>
          h ⟨toLower_eq_underscore_iff.mp hlow.1, toLower_eq_underscore_iff.mp hlow.2⟩)]
        have ih' := ih
        simp only [lowerL, List.map_cons] at ih'
        rw [ih', List.map_cons]

theorem dropWhile_underscore_lowerL (y : Str) :
    (lowerL y).dropWhile (· = '_') = lowerL (y.dropWhile (· = '_')) := by
  rw [lowerL, List.dropWhile_map]
  have hpred : (((· = '_') : Char → Bool) ∘ Char.toLower) = ((· = '_') : Char → Bool) :=
    funext fun c => decide_eq_decide.mpr toLower_eq_underscore_iff
  rw [hpred]
  rfl

theorem trimU_lowerL (y : Str) : trimU (lowerL y) = lowerL (trimU y) := by
  unfold trimU
  rw [dropWhile_underscore_lowerL]
  rw [show (lowerL (y.dropWhile (· = '_'))).reverse =
      lowerL ((y.dropWhile (· = '_')).reverse) by simp [lowerL, List.map_reverse]]
  rw [dropWhile_underscore_lowerL]
  simp [lowerL, List.map_reverse]

theorem sanitizeCol_eq (s : Str) :
    sanitizeCol s = trimU (collapseU ((lowerL s).map replU)) := by
  unfold sanitizeCol
  rw [← trimU_lowerL, ← collapseU_lowerL, lowerL_map_replU]

end GrowthPipeline

namespace GrowthPipeline

theorem prefix_collapseU : ∀ (y key : Str), (∀ k ∈ key, k ≠ '_') →
    key <+: collapseU y → key <+: y := by
  intro y
  induction y with
  | nil => intro key _ h; simpa [collapseU] using h
  | cons c rest ih =>
    intro key hkey hp
    cases rest with
    | nil => simpa [collapseU] using hp
    | cons d rest2 =>
      rw [collapseU] at hp
      by_cases h : c = '_' ∧ d = '_'
      · rw [if_pos h] at hp
        have h2 := ih key hkey hp
        cases key with
        | nil => exact List.nil_prefix
        | cons k ks =>
          rw [List.cons_prefix_cons] at h2
          exact absurd (h2.1.trans h.2) (hkey k (List.mem_cons_self _ _))
      · rw [if_neg h] at hp
        cases key with
        | nil => exact List.nil_prefix
        | cons k ks =>
          rw [List.cons_prefix_cons] at hp ⊢
          exact ⟨hp.1, ih ks (fun a ha => hkey a (List.mem_cons_of_mem _ ha)) hp.2⟩

theorem infix_collapseU : ∀ (y key : Str), (∀ k ∈ key, k ≠ '_') →
    key <:+: collapseU y → key <:+: y := by
  intro y
  induction y with
  | nil => intro key _ h; simpa [collapseU] using h
  | cons c rest ih =>
    intro key hkey hp
    cases rest with
    | nil => simpa [collapseU] using hp
    | cons d rest2 =>
      rw [collapseU] at hp
      by_cases h : c = '_' ∧ d = '_'
      · rw [if_pos h] at hp
        exact List.infix_cons_iff.mpr (Or.inr (ih key hkey hp))
      · rw [if_neg h] at hp
        rcases List.infix_cons_iff.mp hp with h1 | h2
        · cases key with
          | nil => exact List.nil_infix
          | cons k ks =>
            rw [List.cons_prefix_cons] at h1
            have h3 := prefix_collapseU (d :: rest2) ks
              (fun a ha => hkey a (List.mem_cons_of_mem _ ha)) h1.2
            exact (List.cons_prefix_cons.mpr ⟨h1.1, h3⟩).isInfix
        · exact List.infix_cons_iff.mpr (Or.inr (ih key hkey h2))

theorem prefix_map_replU : ∀ (w key : Str), (∀ k ∈ key, k ≠ '_') →
    key <+: w.map replU → key <+: w := by
  intro w
  induction w with
  | nil => intro key _ h; simpa using h
  | cons a t ih =>
    intro key hkey hp
    cases key with
    | nil => exact List.nil_prefix
    | cons k ks =>
      rw [List.map_cons, List.cons_prefix_cons] at hp
      rcases replU_cases a with hre | hre
      · rw [List.cons_prefix_cons]
        rw [hre] at hp
        exact ⟨hp.1, ih ks (fun x hx => hkey x (List.mem_cons_of_mem _ hx)) hp.2⟩
      · rw [hre] at hp
        exact absurd hp.1 (hkey k (List.mem_cons_self _ _))

theorem infix_map_replU : ∀ (w key : Str), (∀ k ∈ key, k ≠ '_') →
    key <:+: w.map replU → key <:+: w := by
  intro w
  induction w with
  | nil => intro key _ h; simpa using h
  | cons a t ih =>
    intro key hkey hp
    rw [List.map_cons] at hp
    rcases List.infix_cons_iff.mp hp with h1 | h2
    · have h1' : key <+: (a :: t).map replU := by rw [List.map_cons]; exact h1
      exact (prefix_map_replU (a :: t) key hkey h1').isInfix
    · exact List.infix_cons_iff.mpr (Or.inr (ih key hkey h2))

theorem findPattern_none_forall {m : List (Str × Str)} {w : Str}
    (h : findPattern m w = none) : ∀ p ∈ m, containsB p.1 w = false := by
  intro p hp
  rw [findPattern, List.findSome?_eq_none_iff] at h
  have hthis := h p hp
  cases hcb : containsB p.1 w with
  | false => rfl
  | true => rw [hcb] at hthis; simp at hthis

theorem dropWhile_head_false {p : Char → Bool} : ∀ {l : Str} {a : Char},
    (l.dropWhile p).head? = some a → p a = false := by
  intro l
  induction l with
  | nil => intro a h; simp at h
  | cons c t ih =>
    intro a h
    rw [List.dropWhile_cons] at h
    by_cases hc : p c = true
    · rw [if_pos hc] at h; exact ih h
    · rw [if_neg hc] at h
      simp only [List.head?_cons, Option.some.injEq] at h
      subst h
      simpa using hc

theorem trimU_prefix_dropWhile (y : Str) : trimU y <+: y.dropWhile (· = '_') := by
  unfold trimU
  rw [← List.reverse_suffix, List.reverse_reverse]
  exact List.dropWhile_suffix _

theorem prefix_head {l₁ l₂ : Str} (h : l₁ <+: l₂) {a : Char}
    (ha : l₁.head? = some a) : l₂.head? = some a := by
  obtain ⟨t, rfl⟩ := h
  cases l₁ with
  | nil => simp at ha
  | cons x xs => simpa using ha

theorem trimU_head {y : Str} {a : Char} (h : (trimU y).head? = some a) :
    a ≠ '_' := by
  have h2 := prefix_head (trimU_prefix_dropWhile y) h
  have h3 := dropWhile_head_false h2
  simpa using h3

theorem trimU_getLast {y : Str} {b : Char} (h : (trimU y).getLast? = some b) :
    b ≠ '_' := by
  unfold trimU at h
  rw [List.getLast?_reverse] at h
  have h2 := dropWhile_head_false h
  simpa using h2

theorem trimU_eq_self {l : Str} (h1 : ∀ a, l.head? = some a → a ≠ '_')
    (h2 : ∀ b, l.getLast? = some b → b ≠ '_') : trimU l = l := by
  unfold trimU
  have hd : l.dropWhile (· = '_') = l := by
    cases l with
    | nil => rfl
    | cons c t =>
      rw [List.dropWhile_cons, if_neg]
      simp only [decide_eq_true_eq]
      exact h1 c rfl
  rw [hd]
  have hd2 : l.reverse.dropWhile (· = '_') = l.reverse := by
    cases hrev : l.reverse with
    | nil => rfl
    | cons c t =>
      rw [List.dropWhile_cons, if_neg]
      simp only [decide_eq_true_eq]
      apply h2
      rw [← List.head?_reverse, hrev]
      rfl
  rw [hd2, List.reverse_reverse]

theorem collapseU_headq : ∀ (d : Char) (rest : Str),
    (collapseU (d :: rest)).head? = some d := by
  intro d rest
  induction rest generalizing d with
  | nil => rfl
  | cons e rest2 ih =>
    rw [collapseU]
    split
    · rename_i h
      rw [ih e, h.2, h.1]
    · rfl

theorem collapseU_chain : ∀ y : Str,
    (collapseU y).Chain' (fun a b => ¬(a = '_' ∧ b = '_')) := by
  intro y
  induction y with
  | nil => simp [collapseU]
  | cons c rest ih =>
    cases rest with
    | nil => simp [collapseU]
    | cons d rest2 =>
      rw [collapseU]
      split
      · exact ih
      · rename_i h
        rw [List.chain'_cons']
        refine ⟨?_, ih⟩
        intro b hb
        rw [collapseU_headq d rest2] at hb
        simp only [Option.mem_def, Option.some.injEq] at hb
        subst hb
        exact h

theorem collapseU_eq_self : ∀ {y : Str},
    y.Chain' (fun a b => ¬(a = '_' ∧ b = '_')) → collapseU y = y := by
  intro y
  induction y with
  | nil => intro _; rfl
  | cons c rest ih =>
    intro h
    cases rest with
    | nil => rfl
    | cons d rest2 =>
      rw [collapseU, if_neg (List.chain'_cons.mp h).1]
      rw [ih (List.chain'_cons.mp h).2]

theorem chain_lowerL {y : Str} (h : y.Chain' (fun a b => ¬(a = '_' ∧ b = '_'))) :
    (lowerL y).Chain' (fun a b => ¬(a = '_' ∧ b = '_')) := by
  rw [lowerL, List.chain'_map]
  exact h.imp (fun _ _ hab hcon => hab
    ⟨toLower_eq_underscore_iff.mp hcon.1, toLower_eq_underscore_iff.mp hcon.2⟩)

end GrowthPipeline

namespace GrowthPipeline

theorem sanitizeCol_fix (s : Str) : sanitizeCol (sanitizeCol s) = sanitizeCol s := by
  have hmap : (sanitizeCol s).map replU = sanitizeCol s := by
    conv_rhs => rw [← List.map_id (sanitizeCol s)]
    exact List.map_congr_left (fun ch hch => by
      rw [replU, if_pos (sanitizeCol_chars ch hch)]; rfl)
  have hchain : (sanitizeCol s).Chain' (fun a b => ¬(a = '_' ∧ b = '_')) := by
    apply chain_lowerL
    exact List.Chain'.infix (collapseU_chain (s.map replU)) (trimU_infix_self _)
  have hcol : collapseU (sanitizeCol s) = sanitizeCol s := collapseU_eq_self hchain
  have hhead : ∀ a, (sanitizeCol s).head? = some a → a ≠ '_' := by
    intro a ha
    unfold sanitizeCol at ha
    rw [lowerL, List.head?_map] at ha
    cases hh : (trimU (collapseU (s.map replU))).head? with
    | none => rw [hh] at ha; simp at ha
    | some a' =>
      rw [hh] at ha
      replace ha := Option.some.inj (by simpa using ha)
      intro heq
      exact trimU_head hh (toLower_eq_underscore_iff.mp (ha.trans heq))
  have hlast : ∀ b, (sanitizeCol s).getLast? = some b → b ≠ '_' := by
    intro b hb
    unfold sanitizeCol at hb
    rw [lowerL, ← List.head?_reverse, ← List.map_reverse, List.head?_map] at hb
    cases hh : (trimU (collapseU (s.map replU))).reverse.head? with
    | none => rw [hh] at hb; simp at hb
    | some b' =>
      rw [hh] at hb
      replace hb := Option.some.inj (by simpa using hb)
      have hb2 : (trimU (collapseU (s.map replU))).getLast? = some b' := by
        rw [← List.head?_reverse]; exact hh
      intro heq
      exact trimU_getLast hb2 (toLower_eq_underscore_iff.mp (hb.trans heq))
  have htrim : trimU (sanitizeCol s) = sanitizeCol s := trimU_eq_self hhead hlast
  have hlow : lowerL (sanitizeCol s) = sanitizeCol s := lowerL_idem _
  show lowerL (trimU (collapseU ((sanitizeCol s).map replU))) = sanitizeCol s
  rw [hmap, hcol, htrim, hlow]

theorem containsB_sanitize_letters {key : Str} (hkey : ∀ k ∈ key, k ≠ '_') {c : Str}
    (hno : containsB key (lowerL c) = false) :
    containsB key (sanitizeCol c) = false := by
  rw [Bool.eq_false_iff]
  intro hcon
  have hinf : key <:+: sanitizeCol c := containsB_iff.mp hcon
  rw [sanitizeCol_eq] at hinf
  have h1 : key <:+: collapseU ((lowerL c).map replU) := hinf.trans (trimU_infix_self _)
  have h2 := infix_collapseU _ key hkey h1
  have h3 := infix_map_replU _ key hkey h2
  rw [Bool.eq_false_iff] at hno
  exact hno (containsB_iff.mpr h3)

theorem containsB_sanitize_special (ch : Char) {key : Str} (hch : ch ∈ key)
    (hw : isWordChar ch = false) (c : Str) :
    containsB key (sanitizeCol c) = false := by
  rw [Bool.eq_false_iff]
  intro hcon
  have hinf := containsB_iff.mp hcon
  have hmem : ch ∈ sanitizeCol c := hinf.sublist.subset hch
  exact absurd (sanitizeCol_chars ch hmem) (by simp [hw])

theorem stdCN_sanitize_fix {s : Str}
    (hm : findPattern mappings (lowerL (trimWS s)) = none) :
    standardize_column_name (sanitizeCol (trimWS s)) = sanitizeCol (trimWS s) := by
  have hfa := findPattern_none_forall hm
  have hfp : findPattern mappings (sanitizeCol (trimWS s)) = none := by
    apply findPattern_eq_none
    intro p hp
    simp only [mappings, List.mem_cons, List.not_mem_nil, or_false] at hp
    rcases hp with rfl | rfl | rfl | rfl | rfl | rfl | rfl | rfl | rfl | rfl
    · exact containsB_sanitize_special '/' (by decide) (by decide) _
    · exact containsB_sanitize_letters (by decide) (hfa _ (by simp [mappings]))
    · exact containsB_sanitize_letters (by decide) (hfa _ (by simp [mappings]))
    · exact containsB_sanitize_special '(' (by decide) (by decide) _
    · exact containsB_sanitize_letters (by decide) (hfa _ (by simp [mappings]))
    · exact containsB_sanitize_letters (by decide) (hfa _ (by simp [mappings]))
    · exact containsB_sanitize_special ' ' (by decide) (by decide) _
    · exact containsB_sanitize_special '.' (by decide) (by decide) _
    · exact containsB_sanitize_special ' ' (by decide) (by decide) _
    · exact containsB_sanitize_letters (by decide) (hfa _ (by simp [mappings]))
  have htrim := trimWS_sanitizeCol (trimWS s)
  have hlow : lowerL (sanitizeCol (trimWS s)) = sanitizeCol (trimWS s) :=
    lowerL_idem _
  simp only [standardize_column_name, htrim, hlow, hfp]
  exact sanitizeCol_fix _

theorem findPattern_mappings_cases {w v : Str}
    (h : findPattern mappings w = some v) :
    v = cs "age_weeks" ∨ v = cs "age_years" ∨ v = cs "age_months" ∨
    v = cs "skeletal_age" ∨ v = cs "height_inches" ∨
    v = cs "mature_height_pct" ∨ v = cs "reference" := by
  rw [findPattern] at h
  obtain ⟨p, hpmem, hpeq⟩ := List.exists_of_findSome?_eq_some h
  have hv : v = p.2 := by
    by_cases hc : containsB p.1 w = true
    · rw [if_pos hc] at hpeq; exact (Option.some.inj hpeq).symm
    · rw [if_neg hc] at hpeq; cases hpeq
  subst hv
  simp only [mappings, List.mem_cons, List.not_mem_nil, or_false] at hpmem
  rcases hpmem with rfl | rfl | rfl | rfl | rfl | rfl | rfl | rfl | rfl | rfl <;> decide

end GrowthPipeline

namespace GrowthPipeline

/-- C6 counterexample: the normalizer is not idempotent on its own
canonical outputs — `Week` maps to the canonical token `age_weeks`, but a
second application maps `age_weeks` to `age_years` (its substring `age`
matches an earlier rule), so `normalize (normalize "Week")` differs from
`normalize "Week"`. -/
theorem claim6_counterexample :
    standardize_column_name (cs "Week") = cs "age_weeks" ∧
    standardize_column_name (cs "age_weeks") = cs "age_years" ∧
    standardize_column_name (standardize_column_name (cs "Week")) ≠
      standardize_column_name (cs "Week") := by decide

/-- C6 amended: the normalizer is not idempotent, but it stabilizes after
the second application: for every raw header string, applying it three
times gives the same result as applying it twice (its sanitization-fallback
outputs are fixed points, and every mapped token reaches a fixed point
after one more application). -/
theorem claim6_amended (s : Str) :
    standardize_column_name (standardize_column_name (standardize_column_name s)) =
      standardize_column_name (standardize_column_name s) := by
  cases hm : findPattern mappings (lowerL (trimWS s)) with
  | some v =>
    have hv : standardize_column_name s = v := by
      simp [standardize_column_name, hm]
    rw [hv]
    rcases findPattern_mappings_cases hm with h | h | h | h | h | h | h <;>
      subst h <;> decide
  | none =>
    have hv : standardize_column_name s = sanitizeCol (trimWS s) := by
      simp [standardize_column_name, hm]
    rw [hv, stdCN_sanitize_fix hm, stdCN_sanitize_fix hm]

end GrowthPipeline
